import Mathlib

/-!
Shallow embedding of `src/Ascle/medical_chatbot.py` (the Baize medical-chatbot
decode pipeline): the sampler and decoder loop (`sample_decode`), the context
assembler (`generate_prompt_with_history`), the caller-facing operation
(`answer_generation`) and the module script's final `.replace` step.

Conventions of the embedding:
* tensors of probabilities/logits are `List ℚ` (exact rationals);
* the real exponential inside `torch.softmax` is abstracted by a parameter
  `E : ℚ → ℚ`; theorems needing properties of the true exponential (strict
  positivity) take them as hypotheses;
* the random draw consumed by `torch.multinomial` is made explicit: a value
  `u ∈ [0,1)` per decode step (a stream `draws : Nat → ℚ`);
* the Model and Tokenizer collaborators are explicit parameters (the source
  binds them as module-level globals);
* fallible torch operations return `Except SampleErr`: `torch.topk` raises when
  `k` exceeds the tensor size, `torch.min` raises on an empty tensor, and
  `torch.multinomial` raises on a degenerate weight vector (which is also how
  the NaNs produced by a zero-sum renormalisation surface in the source).
-/

namespace EHRKit

/-- Runtime errors of the sampler.  `invalidParameter` is the spec's taxonomy
entry for malformed sampling parameters; the source contains no parameter
validation whatsoever, so no code path of the embedding produces it (it is kept
in the type so that error-handling claims can be stated). -/
inductive SampleErr where
  | invalidParameter
  | topkOutOfRange
  | emptyReduction
  | samplingFailure
  deriving DecidableEq, Repr

/-- `torch.cumsum` over a vector: entry `j` is the sum of entries `0..j`. -/
def cumsum (l : List ℚ) : List ℚ :=
  (List.range l.length).map (fun j => (l.take (j + 1)).sum)

/-- Descending order on value-carrying pairs, used to model
`torch.sort(probs, descending=True)`. -/
def descPair : Nat × ℚ → Nat × ℚ → Prop := fun a b => b.2 ≤ a.2

instance : DecidableRel descPair := fun a b => inferInstanceAs (Decidable (b.2 ≤ a.2))

instance : IsTotal (Nat × ℚ) descPair := ⟨fun a b => le_total b.2 a.2⟩

instance : IsTrans (Nat × ℚ) descPair := ⟨fun _ _ _ h1 h2 => le_trans h2 h1⟩

/-- Descending order on values, used to model `torch.topk`. -/
def descQ : ℚ → ℚ → Prop := fun a b => b ≤ a

instance : DecidableRel descQ := fun a b => inferInstanceAs (Decidable (b ≤ a))

instance : IsTotal ℚ descQ := ⟨fun a b => le_total b a⟩

instance : IsTrans ℚ descQ := ⟨fun _ _ _ h1 h2 => le_trans h2 h1⟩

/-- `torch.sort(probs, dim=-1, descending=True)`: the sorted values together
with the permutation back to original indices (`probs_sort`, `probs_idx`).
torch leaves tie order unspecified; the embedding resolves ties
deterministically via a stable insertion sort over index-value pairs. -/
def sortDesc (ps : List ℚ) : List ℚ × List Nat :=
  let sorted := List.insertionSort descPair ps.enum
  (sorted.map (fun x => x.2), sorted.map (fun x => x.1))

/-- `torch.softmax(logits, dim=-1)` modulo the real exponential: `E` abstracts
`x ↦ exp x`. -/
def softmaxE (E : ℚ → ℚ) (logits : List ℚ) : List ℚ :=
  let w := logits.map E
  w.map (fun x => x / w.sum)

/-- The nucleus (top-p) mask of `sample_decode`:
`probs_sum = cumsum(probs_sort)`; `mask = probs_sum - probs_sort > top_p`;
`probs_sort[mask] = 0.0`. -/
def topPFilter (top_p : ℚ) (psort : List ℚ) : List ℚ :=
  List.zipWith (fun p c => if c - p > top_p then 0 else p) psort (cumsum psort)

/-- `torch.topk(v, k).values`: the `k` largest entries of `v` in descending
order (only meaningful for `k ≤ v.length`; the caller checks that bound). -/
def topkVals (v : List ℚ) (k : Nat) : List ℚ :=
  (List.insertionSort descQ v).take k

/-- The top-k branch of `sample_decode` (`if top_k is not None:`):
`probs_sort1 = torch.topk(probs_sort, top_k)`; `min_top = torch.min(probs_sort1)`;
`probs_sort = torch.where(probs_sort < min_top, 0.0, probs_sort)`.
`torch.topk` raises a RuntimeError when `top_k` exceeds the tensor size, and
`torch.min` raises on the empty tensor produced by `top_k = 0`. -/
def topkFilter (top_k : Option Nat) (probs : List ℚ) : Except SampleErr (List ℚ) :=
  match top_k with
  | none => .ok probs
  | some k =>
    if probs.length < k then .error .topkOutOfRange
    else
      match (topkVals probs k).min? with
      | none => .error .emptyReduction
      | some m => .ok (probs.map (fun p => if p < m then 0 else p))

/-- CDF inversion for one multinomial draw `u`: the first index whose
cumulative weight exceeds `u`. -/
def pickIndex : List ℚ → ℚ → Nat
  | [], _ => 0
  | w :: ws, u => if u < w then 0 else pickIndex ws (u - w) + 1

/-- `torch.multinomial(probs_sort, num_samples=1)` with the random draw made
explicit.  Raises (RuntimeError) on a degenerate weight vector: a negative
entry or total mass ≤ 0 — the latter is also how the all-NaN vector produced
by renormalising an all-zero distribution is rejected in the source. -/
def multinomialPick (ws : List ℚ) (u : ℚ) : Except SampleErr Nat :=
  if ws.sum ≤ 0 ∨ ws.any (fun w => w < 0) then .error .samplingFailure
  else .ok (pickIndex ws u)

/-- One decode step of `sample_decode` up to (and excluding) the final
renormalisation: `logits /= temperature`; `probs = softmax(logits)`;
descending sort; top-p mask; top-k mask.  Returns the filtered sorted
probabilities (`probs_sort` just before `probs_sort.div_(...)`). -/
def postFilterProbs (E : ℚ → ℚ) (temperature top_p : ℚ) (top_k : Option Nat)
    (logits : List ℚ) : Except SampleErr (List ℚ) :=
  let scaled := logits.map (fun x => x / temperature)
  let psort := (sortDesc (softmaxE E scaled)).1
  topkFilter top_k (topPFilter top_p psort)

/-- One full sampler step of `sample_decode`: the filters, then
`probs_sort.div_(probs_sort.sum(...))`, `torch.multinomial`, and the final
`torch.gather(probs_idx, ...)` mapping the sampled position back to the
original vocabulary index. -/
def sampleStep (E : ℚ → ℚ) (temperature top_p : ℚ) (top_k : Option Nat)
    (logits : List ℚ) (u : ℚ) : Except SampleErr Nat :=
  let scaled := logits.map (fun x => x / temperature)
  let pidx := (sortDesc (softmaxE E scaled)).2
  match postFilterProbs E temperature top_p top_k logits with
  | .error e => .error e
  | .ok m2 =>
    let renorm := m2.map (fun p => p / m2.sum)
    match multinomialPick renorm u with
    | .error e => .error e
    | .ok i => .ok (pidx.getD i 0)

/-- The external Model collaborator: called either with the full token-id
context and no cached state, or with the most recent token and the cached
state from the previous step; returns last-position logits and new cache. -/
structure ModelStub (σ : Type) where
  fwd : List Nat → Option σ → List ℚ × σ

/-- The observable outcome of one `sample_decode` generator run: the yielded
elements in order (the generated-token sequence and its decoded text at each
yield — the source yields only the text), and the error that aborted the
generator, if any. -/
structure DecodeRun where
  yields : List (List Nat × String)
  error : Option SampleErr
  deriving DecidableEq, Repr

/-- Python's `x in text` substring test. -/
def containsSub (pat s : String) : Bool :=
  s.data.tails.any (fun t => pat.data.isPrefixOf t)

/-- `any([x in text for x in stop_words])`. -/
def stopHit (stop_words : List String) (text : String) : Bool :=
  stop_words.any (fun x => containsSub x text)

/-- The Model query made at the top of each loop iteration: on the first step
(`past_key_values is None`) the full `input_ids` with no cached state, on
subsequent steps only `input_ids[:, -1:]` together with the cached state. -/
def modelCall {σ : Type} (model : ModelStub σ) (input_ids : List Nat)
    (past : Option σ) : List ℚ × σ :=
  match past with
  | none => model.fwd input_ids none
  | some p => model.fwd (input_ids.drop (input_ids.length - 1)) (some p)

/-- The body of `sample_decode`'s `for i in range(max_length)` loop.
`fuel` is the number of remaining iterations, `i` the current step index
(addressing the explicit stream of multinomial draws), `input_ids` the growing
context, `past` the cached state (`past_key_values`), `gen` the
`generated_tokens` list. -/
def sampleDecodeAux {σ : Type} (E : ℚ → ℚ) (draws : Nat → ℚ) (model : ModelStub σ)
    (tokDecode : List Nat → String) (stop_words : List String)
    (temperature top_p : ℚ) (top_k : Option Nat) :
    Nat → Nat → List Nat → Option σ → List Nat → DecodeRun
  | 0, _, _, _, _ => ⟨[], none⟩
  | fuel + 1, i, input_ids, past, gen =>
    let out := modelCall model input_ids past
    match sampleStep E temperature top_p top_k out.1 (draws i) with
    | .error e => ⟨[], some e⟩
    | .ok tok =>
      let gen' := gen ++ [tok]
      let text := tokDecode gen'
      if stopHit stop_words text then ⟨[(gen', text)], none⟩
      else
        let r := sampleDecodeAux E draws model tokDecode stop_words temperature top_p top_k
          fuel (i + 1) (input_ids ++ [tok]) (some out.2) gen'
        ⟨(gen', text) :: r.yields, r.error⟩

/-- `sample_decode(input_ids, model, tokenizer, stop_words, max_length,
temperature=1.0, top_p=1.0, top_k=25)`, with the generator's yielded stream
reified as a list. -/
def sample_decode {σ : Type} (E : ℚ → ℚ) (draws : Nat → ℚ)
    (input_ids : List Nat) (model : ModelStub σ) (tokDecode : List Nat → String)
    (stop_words : List String) (max_length : Nat)
    (temperature : ℚ := 1) (top_p : ℚ := 1) (top_k : Option Nat := some 25) : DecodeRun :=
  sampleDecodeAux E draws model tokDecode stop_words temperature top_p top_k
    max_length 0 input_ids none []

/-- The fixed system preamble of `generate_prompt_with_history`, verbatim. -/
def promptPreamble : String :=
  "The following is a conversation between a human and an AI assistant named Baize (named after a mythical creature in Chinese folklore). Baize is an open-source AI assistant developed by UCSD and Sun Yat-Sen University. The human and the AI assistant take turns chatting. Human statements start with [|Human|] and AI assistant statements start with [|AI|]. The AI assistant always provides responses in as much detail as possible, and in Markdown format. The AI assistant always declines to engage with topics, questions and instructions related to unethical, controversial, or sensitive issues. Complete the transcript in exactly that format.\n[|Human|]Hello!\n[|AI|]Hi!"

/-- `"\n[|Human|]{}\n[|AI|]{}".format(x[0], x[1])` — one serialized history turn. -/
def serializeTurn (x : String × String) : String :=
  "\n[|Human|]" ++ x.1 ++ "\n[|AI|]" ++ x.2

/-- `"\n[|Human|]{}\n[|AI|]".format(text)` — the serialized new utterance. -/
def serializeUtterance (text : String) : String :=
  "\n[|Human|]" ++ text ++ "\n[|AI|]"

/-- The assembler's walk over `history[::-1]`.  Note the measured string
appends the candidate turn AFTER the current accumulator
(`tokenizer(prompt + history_text + x)`) while the commit prepends it
(`history_text = x + history_text`); the two only agree for tokenizers whose
token count is insensitive to that reordering.  The `else` branch is the
source's `break`: the walk stops at the first turn that fails the check. -/
def assembleLoop (encode : String → List Nat) (max_length : Nat) :
    List String → String → Bool → String × Bool
  | [], acc, flag => (acc, flag)
  | x :: xs, acc, flag =>
    if (encode (promptPreamble ++ acc ++ x)).length ≤ max_length then
      assembleLoop encode max_length xs (x ++ acc) true
    else (acc, flag)

/-- `generate_prompt_with_history(text, history, tokenizer, max_length=2048)`:
returns the prompt string and its tokenization (`input_ids`), or `None` when
not even the serialized new utterance fits. -/
def generate_prompt_with_history (text : String) (history : List (String × String))
    (encode : String → List Nat) (max_length : Nat := 2048) :
    Option (String × List Nat) :=
  let hist := history.map serializeTurn ++ [serializeUtterance text]
  let res := assembleLoop encode max_length hist.reverse "" false
  if res.2 then some (promptPreamble ++ res.1, encode (promptPreamble ++ res.1))
  else none

/-- The number of commits the assembler's walk performs from a given state
(an observation of `assembleLoop`, used to count included turns). -/
def assembleCount (encode : String → List Nat) (max_length : Nat) :
    List String → String → Nat
  | [], _ => 0
  | x :: xs, acc =>
    if (encode (promptPreamble ++ acc ++ x)).length ≤ max_length then
      assembleCount encode max_length xs (x ++ acc) + 1
    else 0

/-- The number of history turns included in the assembled prompt: the commits
performed after the mandatory new-utterance commit. -/
def includedTurns (text : String) (history : List (String × String))
    (encode : String → List Nat) (max_length : Nat) : Nat :=
  if (encode (promptPreamble ++ serializeUtterance text)).length ≤ max_length then
    assembleCount encode max_length (history.map serializeTurn).reverse (serializeUtterance text)
  else 0

/-- `answer_generation(base_model, adapter_model, question, max_length,
temperature, top_p, top_k, max_context_length_tokens)`.  The source reads the
module globals `tokenizer`, `model`, `device`; the embedding passes them (and
the softmax/draw abstractions) explicitly.  The source sets `history = ""` and
iterates over it building turn strings, which yields no turns, so the history
passed on is empty.  `base_model`, `adapter_model`, `temperature`, `top_p` and
`top_k` are accepted but never read; the inner `sample_decode` call passes
only `max_length=256`, leaving temperature/top_p/top_k at their defaults. -/
def answer_generation {σ : Type} (E : ℚ → ℚ) (draws : Nat → ℚ)
    (encode : String → List Nat) (tokDecode : List Nat → String) (model : ModelStub σ)
    (base_model adapter_model : String) (question : String) (max_length : Nat)
    (temperature : ℚ) (top_p : ℚ) (top_k : Option Nat)
    (max_context_length_tokens : Nat) : Option String :=
  let text := question
  match generate_prompt_with_history text [] encode max_length with
  | none => none
  | some (_prompt, ids) =>
    let input_ids :=
      if max_context_length_tokens = 0 then ids
      else ids.drop (ids.length - max_context_length_tokens)
    let run := sample_decode E draws input_ids model tokDecode ["[|Human|]", "[|AI|]"] 256
    match run.error with
    | some _ => none
    | none => (run.yields.getLast?).map (fun y => y.2)

/-- Python `str.replace` over the character list: non-overlapping
left-to-right replacement of every occurrence of `p` by `r`.  The fuel
`s.length` suffices for a nonempty pattern. -/
def replChars (p r : List Char) : Nat → List Char → List Char
  | 0, _ => []
  | _ + 1, [] => []
  | fuel + 1, c :: cs =>
    if p.isPrefixOf (c :: cs) then r ++ replChars p r fuel ((c :: cs).drop p.length)
    else c :: replChars p r fuel cs

/-- `s.replace(pat, rep)` (Python semantics). -/
def pyReplace (s pat rep : String) : String :=
  ⟨replChars pat.data rep.data s.data.length s.data⟩

/-- The module script's final answer:
`answer_generation(...).replace("\n[|Human|]", "")`. -/
def moduleMainAnswer {σ : Type} (E : ℚ → ℚ) (draws : Nat → ℚ)
    (encode : String → List Nat) (tokDecode : List Nat → String) (model : ModelStub σ)
    (base_model adapter_model : String) (question : String) (max_length : Nat)
    (temperature : ℚ) (top_p : ℚ) (top_k : Option Nat)
    (max_context_length_tokens : Nat) : Option String :=
  (answer_generation E draws encode tokDecode model base_model adapter_model question
      max_length temperature top_p top_k max_context_length_tokens).map
    (fun a => pyReplace a "\n[|Human|]" "")


/-- Concatenation of a list of strings (used to state which serialized turns
appear in an assembled prompt). -/
def concatAll : List String → String
  | [] => ""
  | x :: xs => x ++ concatAll xs

instance : Std.Antisymm (fun a b : ℚ => a ≤ b) where
  antisymm h1 h2 := le_antisymm h1 h2

/-- Modelled from the spec: "plain temperature-scaled multinomial sampling"
with no top-p/top-k filtering — temperature scaling, softmax, descending sort,
one multinomial draw over the full distribution, gather back to the original
index.  Used to compare the full sampler against the spec's degenerate case. -/
def plainSampleStep (E : ℚ → ℚ) (temperature : ℚ) (logits : List ℚ) (u : ℚ) :
    Except SampleErr Nat :=
  let probs := softmaxE E (logits.map (fun x => x / temperature))
  match multinomialPick ((sortDesc probs).1) u with
  | .error e => .error e
  | .ok i => .ok ((sortDesc probs).2.getD i 0)

/-! Concrete collaborator stubs used by witnesses and counterexamples. -/

/-- Number of (possibly overlapping) occurrences of `pat` in `s`. -/
def countSubPat (pat s : String) : Nat :=
  s.data.tails.countP (fun t => pat.data.isPrefixOf t)

/-- A tokenizer-encode stub counting digits plus a large penalty for the
boundary pattern digit-1-then-newline.  Its token count over a concatenation
depends on the concatenation order — which real subword tokenizers that merge
across boundaries also exhibit. -/
def boundaryEnc : String → List Nat :=
  fun s => List.replicate (s.data.countP Char.isDigit + 10 * countSubPat "1\n" s) 0

/-- A tokenizer-encode stub with one token per character (additive, length
based). -/
def charEnc : String → List Nat := fun s => s.data.map Char.toNat

/-- A tokenizer-encode stub that charges a huge token count exactly when the
text contains the marker LONGMARKER, and zero otherwise. -/
def markerEnc : String → List Nat :=
  fun s => if containsSub "LONGMARKER" s then List.replicate 101 0 else []

/-- A concrete strictly positive stand-in for the exponential, used by the
concrete witnesses below. -/
def expApprox : ℚ → ℚ := fun x => if x ≤ 0 then 1 / (1 - x) else 1 + x

/-- A trivial constant Model stub used by concrete witnesses: always replies
with the logits `[0, 1]`. -/
def constModel01 : ModelStub Unit := ⟨fun _ _ => ([0, 1], ())⟩

/-- A trivial tokenizer-decode stub used by concrete witnesses. -/
def emptyDecode : List Nat → String := fun _ => ""

/-- A constant Model stub whose highest logit is always token 1. -/
def constModelArgmax1 : ModelStub Unit := ⟨fun _ _ => ([0, 1000], ())⟩

/-- A tokenizer-decode stub mapping every token to the letter a. -/
def decodeAllA : List Nat → String := fun ts => String.mk (ts.map (fun _ => 'a'))

/-- The text the Model emits token-by-token in the C1 scenario (stop marker
not preceded by a newline). -/
def hiThereMarked : String := "Hi there![|Human|]"

/-- The C1 scenario text with the stop marker preceded by a newline. -/
def hiThereNewlineMarked : String := "Hi there!\n[|Human|]"

/-- A Model stub over a 26-token vocabulary that puts all its logit mass on
token `i` at step `i`; the cached state counts steps. -/
def stepIndexModel : ModelStub Nat :=
  ⟨fun _ids past =>
    let step := match past with | none => 0 | some p => p
    ((List.range 26).map (fun j => if j = step then (1000 : ℚ) else 0), step + 1)⟩

/-- Tokenizer-decode stub for the C1 scenario: token `t` renders as character
`t` of `base`, so the decoded text after `n + 1` tokens is the first `n + 1`
characters of `base`. -/
def positionDecode (base : String) : List Nat → String :=
  fun ts => String.mk (ts.map (fun t => base.data.getD t ' '))

set_option maxRecDepth 8000000

theorem expApprox_pos (x : ℚ) : 0 < expApprox x := by
  unfold expApprox
  split
  · have h1 : (0:ℚ) < 1 - x := by linarith
    positivity
  · linarith

/-- The top-k branch never reports the spec's invalid-parameter error. -/
theorem topkFilter_ne_invalidParameter (top_k : Option Nat) (ps : List ℚ) :
    topkFilter top_k ps ≠ Except.error SampleErr.invalidParameter := by
  unfold topkFilter
  repeat' split
  all_goals intro h
  all_goals first
    | exact Except.noConfusion h
    | (injection h with h2; exact SampleErr.noConfusion h2)

/-- The multinomial draw never reports the spec's invalid-parameter error. -/
theorem multinomialPick_ne_invalidParameter (ws : List ℚ) (u : ℚ) :
    multinomialPick ws u ≠ Except.error SampleErr.invalidParameter := by
  unfold multinomialPick
  split <;> simp


/-- C2 (amended): the sampler performs no parameter validation at all.  For
every temperature, top_p, top_k, logits vector and draw — including
`temperature ≤ 0` and `top_p` outside `(0, 1]` — no invalid-parameter error is
ever reported: the computation always proceeds straight into the temperature
division. -/
theorem sampleStep_never_invalidParameter (E : ℚ → ℚ) (temperature top_p : ℚ)
    (top_k : Option Nat) (logits : List ℚ) (u : ℚ) :
    sampleStep E temperature top_p top_k logits u ≠
      Except.error SampleErr.invalidParameter := by
  simp only [sampleStep]
  cases hpf : postFilterProbs E temperature top_p top_k logits with
  | error e =>
    intro h
    injection h with h2
    subst h2
    exact topkFilter_ne_invalidParameter _ _ hpf
  | ok m2 =>
    dsimp only
    cases hmp : multinomialPick (m2.map (fun p => p / m2.sum)) u with
    | error e =>
      intro h
      injection h with h2
      subst h2
      exact multinomialPick_ne_invalidParameter _ _ hmp
    | ok i =>
      intro h
      exact Except.noConfusion h

/-- C2 counterexample: the claim says `temperature ≤ 0` (and out-of-range
`top_p`) must be rejected with an invalid-parameter error before any
temperature scaling.  Instead, with `temperature = -1` and `top_p = 2` the
source performs the division and returns an ordinary sampled token id. -/
theorem sampleStep_accepts_invalid_temperature :
    sampleStep expApprox (-1) 2 (some 1) [0, 1] 0 = Except.ok 0 ∧
    sampleStep expApprox (-1) 2 (some 1) [0, 1] 0 ≠
      Except.error SampleErr.invalidParameter := by
  constructor
  · with_unfolding_all rfl
  · exact sampleStep_never_invalidParameter expApprox (-1) 2 (some 1) [0, 1] 0

/-- C3: `answer_generation` accepts `base_model`, `adapter_model`,
`temperature`, `top_p` and `top_k` but never reads them: two calls agreeing on
everything else produce identical results.  Moreover the call is literally the
assemble-then-decode pipeline with the decode step bound hard-coded to 256 and
the sampler left at its defaults `temperature = 1`, `top_p = 1`, `top_k = 25`. -/
theorem answer_generation_ignores_tuning_params {σ : Type} (E : ℚ → ℚ)
    (draws : Nat → ℚ) (encode : String → List Nat) (tokDecode : List Nat → String)
    (model : ModelStub σ) (b1 a1 b2 a2 q : String) (ml : Nat)
    (t1 p1 t2 p2 : ℚ) (k1 k2 : Option Nat) (mctx : Nat) :
    answer_generation E draws encode tokDecode model b1 a1 q ml t1 p1 k1 mctx =
      answer_generation E draws encode tokDecode model b2 a2 q ml t2 p2 k2 mctx ∧
    answer_generation E draws encode tokDecode model b1 a1 q ml t1 p1 k1 mctx =
      (match generate_prompt_with_history q [] encode ml with
       | none => none
       | some (_, ids) =>
         let input_ids := if mctx = 0 then ids else ids.drop (ids.length - mctx)
         let run := sample_decode E draws input_ids model tokDecode
           ["[|Human|]", "[|AI|]"] 256 1 1 (some 25)
         match run.error with
         | some _ => none
         | none => (run.yields.getLast?).map (fun y => y.2)) :=
  ⟨rfl, rfl⟩


theorem cumsum_length (l : List ℚ) : (cumsum l).length = l.length := by
  simp [cumsum]

theorem cumsum_getD (l : List ℚ) (j : Nat) (hj : j < l.length) :
    (cumsum l).getD j 0 = (l.take (j + 1)).sum := by
  have hj2 : j < (cumsum l).length := by rw [cumsum_length]; exact hj
  rw [List.getD_eq_getElem _ _ hj2]
  unfold cumsum
  simp

theorem topPFilter_length (top_p : ℚ) (ps : List ℚ) :
    (topPFilter top_p ps).length = ps.length := by
  simp [topPFilter, cumsum_length]

/-- The entry of the masked vector at a valid index, with the mask condition
rewritten through `cumsum[j] - ps[j] = (ps.take j).sum`. -/
theorem topPFilter_getD (top_p : ℚ) (ps : List ℚ) (j : Nat) (hj : j < ps.length) :
    (topPFilter top_p ps).getD j 0 =
      if top_p < (ps.take j).sum then 0 else ps.getD j 0 := by
  have hj2 : j < (topPFilter top_p ps).length := by rw [topPFilter_length]; exact hj
  have hj3 : j < (cumsum ps).length := by rw [cumsum_length]; exact hj
  rw [List.getD_eq_getElem _ _ hj2, List.getD_eq_getElem _ _ hj]
  unfold topPFilter
  rw [List.getElem_zipWith]
  have hsum : (cumsum ps)[j] = (ps.take (j + 1)).sum := by
    rw [← List.getD_eq_getElem _ 0 hj3]
    exact cumsum_getD ps j hj
  rw [hsum, List.sum_take_succ ps j hj]
  have harith : (ps.take j).sum + ps[j] - ps[j] = (ps.take j).sum := by ring
  rw [harith]

theorem sum_take_mono (l : List ℚ) (hnn : ∀ p ∈ l, 0 ≤ p) {a b : Nat} (hab : a ≤ b) :
    (l.take a).sum ≤ (l.take b).sum := by
  have h1 : (l.take b).take a = l.take a := by
    rw [List.take_take, Nat.min_eq_left hab]
  have h2 : (l.take b) = (l.take b).take a ++ (l.take b).drop a :=
    (List.take_append_drop a (l.take b)).symm
  have h3 : 0 ≤ ((l.take b).drop a).sum := by
    apply List.sum_nonneg
    intro x hx
    exact hnn x (List.mem_of_mem_take (List.mem_of_mem_drop hx))
  calc (l.take a).sum = ((l.take b).take a).sum := by rw [h1]
    _ ≤ ((l.take b).take a).sum + ((l.take b).drop a).sum := by linarith
    _ = (l.take b).sum := by rw [← List.sum_append, ← h2]

/-- C4: the top-p filter zeroes exactly the sorted entries `j` with
`cumulative_sum[j] - sorted_prob[j] > top_p` (first conjunct, no side
conditions).  For nonnegative sorted probabilities and a nonnegative `top_p`,
letting `j0` be the position where the cumulative mass first strictly exceeds
(crosses) `top_p`: the crossing entry is kept with its probability unchanged,
every entry strictly after `j0` is zeroed, and every entry up to `j0` is kept
unchanged. -/
theorem topP_mask_boundary (top_p : ℚ) (ps : List ℚ)
    (hnn : ∀ p ∈ ps, 0 ≤ p) (hp : 0 ≤ top_p) (j0 : Nat) (hj0 : j0 < ps.length)
    (hcross : top_p < (cumsum ps).getD j0 0)
    (hfirst : ∀ m, m < j0 → ¬ top_p < (cumsum ps).getD m 0) :
    (∀ j, j < ps.length →
      (topPFilter top_p ps).getD j 0 =
        if (cumsum ps).getD j 0 - ps.getD j 0 > top_p then 0 else ps.getD j 0) ∧
    (topPFilter top_p ps).getD j0 0 = ps.getD j0 0 ∧
    (∀ j, j0 < j → (topPFilter top_p ps).getD j 0 = 0) ∧
    (∀ j, j ≤ j0 → (topPFilter top_p ps).getD j 0 = ps.getD j 0) := by
  have hmask : ∀ j, j < ps.length →
      (topPFilter top_p ps).getD j 0 =
        if top_p < (ps.take j).sum then 0 else ps.getD j 0 :=
    fun j hj => topPFilter_getD top_p ps j hj
  have hkeep : ∀ j, j ≤ j0 → (topPFilter top_p ps).getD j 0 = ps.getD j 0 := by
    intro j hj
    have hjlen : j < ps.length := lt_of_le_of_lt hj hj0
    rw [hmask j hjlen]
    have hnotlt : ¬ top_p < (ps.take j).sum := by
      cases j with
      | zero => simpa using not_lt_of_le hp
      | succ m =>
        have hm : m < j0 := lt_of_lt_of_le (Nat.lt_succ_self m) hj
        have hmlen : m < ps.length := lt_trans hm hj0
        have := hfirst m hm
        rwa [cumsum_getD ps m hmlen] at this
    rw [if_neg hnotlt]
  refine ⟨?_, hkeep j0 (le_refl j0), ?_, hkeep⟩
  · intro j hj
    rw [hmask j hj]
    have hcj : (cumsum ps).getD j 0 - ps.getD j 0 = (ps.take j).sum := by
      rw [cumsum_getD ps j hj, List.sum_take_succ ps j hj,
        List.getD_eq_getElem _ _ hj]
      ring
    rw [hcj]
  · intro j hjgt
    by_cases hjlen : j < ps.length
    · rw [hmask j hjlen]
      have hlt : top_p < (ps.take j).sum := by
        have h1 : (ps.take (j0 + 1)).sum ≤ (ps.take j).sum :=
          sum_take_mono ps hnn (Nat.succ_le_of_lt hjgt)
        have h2 : top_p < (ps.take (j0 + 1)).sum := by
          rwa [cumsum_getD ps j0 hj0] at hcross
        linarith
      rw [if_pos hlt]
    · apply List.getD_eq_default
      rw [topPFilter_length]
      exact Nat.le_of_not_lt hjlen

/-- Witness for C4 at `ps = [1/2, 1/4, 1/4]`, `top_p = 1/2`: the cumulative
mass first exceeds 1/2 at position 1 (3/4); position 1 is kept at 1/4 and
position 2 is zeroed. -/
theorem topP_mask_boundary_witness :
    (topPFilter (1/2) [1/2, 1/4, 1/4]).getD 1 0 = 1/4 ∧
    (topPFilter (1/2) [1/2, 1/4, 1/4]).getD 2 0 = 0 := by
  have h := topP_mask_boundary (1/2) [1/2, 1/4, 1/4]
    (by with_unfolding_all decide) (by with_unfolding_all decide) 1
    (by with_unfolding_all decide) (by with_unfolding_all decide)
    (by with_unfolding_all decide)
  refine ⟨h.2.1.trans (by with_unfolding_all rfl), h.2.2.1 2 (by decide)⟩


/-- C5: whenever the post-filter probability distribution of a decode step
sums to zero, the in-source renormalisation divides by zero and
`torch.multinomial` rejects the resulting degenerate vector: the sampler step
reports a sampling failure — it never silently returns index 0 or any other
token id — and the decoder loop aborts at exactly that step, yielding nothing
further. -/
theorem degenerate_distribution_sampling_failure (E : ℚ → ℚ)
    (temperature top_p : ℚ) (top_k : Option Nat) (logits : List ℚ) (u : ℚ)
    (f : List ℚ) (hf : postFilterProbs E temperature top_p top_k logits = .ok f)
    (hzero : f.sum = 0) :
    sampleStep E temperature top_p top_k logits u =
      Except.error SampleErr.samplingFailure ∧
    (∀ (σ : Type) (draws : Nat → ℚ) (model : ModelStub σ)
      (tokDecode : List Nat → String) (stop_words : List String)
      (fuel i : Nat) (input_ids : List Nat) (past : Option σ) (gen : List Nat),
      (modelCall model input_ids past).1 = logits →
      draws i = u →
      sampleDecodeAux E draws model tokDecode stop_words temperature top_p top_k
        (fuel + 1) i input_ids past gen = ⟨[], some SampleErr.samplingFailure⟩) := by
  have hstep : sampleStep E temperature top_p top_k logits u =
      Except.error SampleErr.samplingFailure := by
    simp only [sampleStep]
    rw [hf]
    dsimp only
    have hrz : (f.map (fun p => p / f.sum)).sum = 0 := by
      apply List.sum_eq_zero
      intro x hx
      rcases List.mem_map.mp hx with ⟨p, hp, rfl⟩
      rw [hzero, div_zero]
    have hmp : multinomialPick (f.map (fun p => p / f.sum)) u =
        Except.error SampleErr.samplingFailure := by
      unfold multinomialPick
      rw [if_pos (Or.inl (le_of_eq hrz))]
    rw [hmp]
  refine ⟨hstep, ?_⟩
  intro σ draws model tokDecode stop_words fuel i input_ids past gen hm hd
  simp only [sampleDecodeAux]
  rw [hm, hd, hstep]

/-- Witness for C5: with `top_p = -1` every entry is masked, the post-filter
distribution is `[0, 0]`, and both the sampler step and a decoder-loop step
report the sampling failure. -/
theorem degenerate_distribution_witness :
    sampleStep expApprox 1 (-1) (some 1) [0, 1] 0 =
      Except.error SampleErr.samplingFailure ∧
    sampleDecodeAux expApprox (fun _ => 0) constModel01 emptyDecode ["x"]
        1 (-1) (some 1) 1 0 [] none [] = ⟨[], some SampleErr.samplingFailure⟩ := by
  have h := degenerate_distribution_sampling_failure expApprox 1 (-1) (some 1)
    [0, 1] 0 [0, 0] (by with_unfolding_all rfl) (by with_unfolding_all rfl)
  exact ⟨h.1, h.2 Unit (fun _ => 0) constModel01 emptyDecode ["x"] 0 0 [] none []
    (by rfl) rfl⟩


/-- Shape invariant of the decoder loop, proved by induction on the remaining
fuel: at most `fuel` yields; the `j`-th yield carries `base + j + 1` generated
tokens (one more per yield); no yield before the last contains a stop word;
and a yield containing a stop word is the last one. -/
theorem sampleDecodeAux_shape {σ : Type} (E : ℚ → ℚ) (draws : Nat → ℚ)
    (model : ModelStub σ) (tokDecode : List Nat → String) (stop_words : List String)
    (temperature top_p : ℚ) (top_k : Option Nat) :
    ∀ (fuel i : Nat) (input_ids : List Nat) (past : Option σ) (gen : List Nat),
      ((sampleDecodeAux E draws model tokDecode stop_words temperature top_p top_k
          fuel i input_ids past gen).yields.length ≤ fuel) ∧
      (∀ j, j < (sampleDecodeAux E draws model tokDecode stop_words temperature top_p
          top_k fuel i input_ids past gen).yields.length →
        (((sampleDecodeAux E draws model tokDecode stop_words temperature top_p top_k
          fuel i input_ids past gen).yields.getD j ([], "")).1).length
            = gen.length + j + 1) ∧
      (∀ j, j + 1 < (sampleDecodeAux E draws model tokDecode stop_words temperature
          top_p top_k fuel i input_ids past gen).yields.length →
        stopHit stop_words ((sampleDecodeAux E draws model tokDecode stop_words
          temperature top_p top_k fuel i input_ids past gen).yields.getD
            j ([], "")).2 = false) ∧
      (∀ n, n < (sampleDecodeAux E draws model tokDecode stop_words temperature top_p
          top_k fuel i input_ids past gen).yields.length →
        stopHit stop_words ((sampleDecodeAux E draws model tokDecode stop_words
          temperature top_p top_k fuel i input_ids past gen).yields.getD
            n ([], "")).2 = true →
        (sampleDecodeAux E draws model tokDecode stop_words temperature top_p top_k
          fuel i input_ids past gen).yields.length = n + 1) := by
  intro fuel
  induction fuel with
  | zero =>
    intro i input_ids past gen
    simp [sampleDecodeAux]
  | succ fuel ih =>
    intro i input_ids past gen
    simp only [sampleDecodeAux]
    cases hs : sampleStep E temperature top_p top_k
        (modelCall model input_ids past).1 (draws i) with
    | error e =>
      dsimp only
      refine ⟨Nat.zero_le _, ?_, ?_, ?_⟩ <;> intro j hj <;> simp at hj
    | ok tok =>
      dsimp only
      by_cases hstop : stopHit stop_words (tokDecode (gen ++ [tok])) = true
      · rw [if_pos hstop]
        refine ⟨by simp, ?_, ?_, ?_⟩
        · intro j hj
          simp only [List.length_cons, List.length_nil] at hj
          interval_cases j
          simp [List.length_append]
        · intro j hj
          simp only [List.length_cons, List.length_nil] at hj
          omega
        · intro n hn _
          simp only [List.length_cons, List.length_nil] at hn ⊢
          omega
      · rw [if_neg hstop]
        obtain ⟨ih1, ih2, ih3, ih4⟩ :=
          ih (i + 1) (input_ids ++ [tok]) (some (modelCall model input_ids past).2)
            (gen ++ [tok])
        refine ⟨?_, ?_, ?_, ?_⟩
        · simp only [List.length_cons]
          omega
        · intro j hj
          cases j with
          | zero => simp [List.length_append]
          | succ j' =>
            simp only [List.length_cons] at hj
            have hj' : j' < (sampleDecodeAux E draws model tokDecode stop_words
                temperature top_p top_k fuel (i + 1) (input_ids ++ [tok])
                (some (modelCall model input_ids past).2) (gen ++ [tok])).yields.length :=
              by omega
            simp only [List.getD_cons_succ]
            rw [ih2 j' hj']
            simp only [List.length_append, List.length_cons, List.length_nil]
            omega
        · intro j hj
          cases j with
          | zero =>
            simp only [List.getD_cons_zero]
            simpa using hstop
          | succ j' =>
            simp only [List.length_cons] at hj
            simp only [List.getD_cons_succ]
            exact ih3 j' (by omega)
        · intro n hn hstopn
          cases n with
          | zero =>
            simp only [List.getD_cons_zero] at hstopn
            exact absurd hstopn hstop
          | succ n' =>
            simp only [List.length_cons] at hn
            simp only [List.getD_cons_succ] at hstopn
            have := ih4 n' (by omega) hstopn
            simp only [List.length_cons, this]

/-- C6: for every decoder-loop invocation, the yielded sequence is finite with
at most `max_length` (the step bound) elements; the `j`-th yield carries
exactly `j + 1` generated tokens, so successive yields grow by exactly one
token; no yield except possibly the last contains a stop word (the loop stops
immediately after the first stop hit); and if the yield at position `n`
contains a stop word — the stop marker completes at step `n` — then the
sequence has exactly `n + 1` elements. -/
theorem decoder_loop_yield_shape {σ : Type} (E : ℚ → ℚ) (draws : Nat → ℚ)
    (input_ids : List Nat) (model : ModelStub σ) (tokDecode : List Nat → String)
    (stop_words : List String) (max_length : Nat) (temperature top_p : ℚ)
    (top_k : Option Nat) :
    ((sample_decode E draws input_ids model tokDecode stop_words max_length
        temperature top_p top_k).yields.length ≤ max_length) ∧
    (∀ j, j < (sample_decode E draws input_ids model tokDecode stop_words max_length
        temperature top_p top_k).yields.length →
      (((sample_decode E draws input_ids model tokDecode stop_words max_length
        temperature top_p top_k).yields.getD j ([], "")).1).length = j + 1) ∧
    (∀ j, j + 1 < (sample_decode E draws input_ids model tokDecode stop_words
        max_length temperature top_p top_k).yields.length →
      stopHit stop_words ((sample_decode E draws input_ids model tokDecode stop_words
        max_length temperature top_p top_k).yields.getD j ([], "")).2 = false) ∧
    (∀ n, n < (sample_decode E draws input_ids model tokDecode stop_words max_length
        temperature top_p top_k).yields.length →
      stopHit stop_words ((sample_decode E draws input_ids model tokDecode stop_words
        max_length temperature top_p top_k).yields.getD n ([], "")).2 = true →
      (sample_decode E draws input_ids model tokDecode stop_words max_length
        temperature top_p top_k).yields.length = n + 1) := by
  obtain ⟨h1, h2, h3, h4⟩ := sampleDecodeAux_shape E draws model tokDecode stop_words
    temperature top_p top_k max_length 0 input_ids none []
  exact ⟨h1, fun j hj => by simpa using h2 j hj, h3, h4⟩


/-- Witness for C6: with a model that always emits token 1, a decode stub
rendering every token as the letter a, and stop word aa, the marker completes
at step 1 and the loop yields exactly 2 elements (bounded by 256). -/
theorem decoder_loop_yield_shape_witness :
    (sample_decode expApprox (fun _ => 0) [5] constModelArgmax1 decodeAllA
      ["aa"] 256 1 1 none).yields.length = 2 := by
  have h := decoder_loop_yield_shape expApprox (fun _ => 0) [5] constModelArgmax1
    decodeAllA ["aa"] 256 1 1 none
  exact h.2.2.2 1 (by with_unfolding_all decide) (by with_unfolding_all rfl)


theorem concatAll_nil : concatAll [] = "" := rfl

theorem concatAll_cons (x : String) (xs : List String) :
    concatAll (x :: xs) = x ++ concatAll xs := rfl

theorem empty_append_str (s : String) : "" ++ s = s := by
  apply String.ext
  rw [String.data_append]
  rfl

theorem concatAll_append (l1 l2 : List String) :
    concatAll (l1 ++ l2) = concatAll l1 ++ concatAll l2 := by
  induction l1 with
  | nil => rw [List.nil_append, concatAll_nil, empty_append_str]
  | cons x xs ih =>
    rw [List.cons_append, concatAll_cons, concatAll_cons, ih, String.append_assoc]

/-- Once the walk's flag is set it stays set. -/
theorem assembleLoop_flag_true (encode : String → List Nat) (max_length : Nat) :
    ∀ (xs : List String) (acc : String),
      (assembleLoop encode max_length xs acc true).2 = true := by
  intro xs
  induction xs with
  | nil => intro acc; rfl
  | cons x rest ih =>
    intro acc
    unfold assembleLoop
    split
    · exact ih (x ++ acc)
    · rfl

/-- Core of C7: if each of the first `k` elements of the walk order passes its
check (given the commits before it) and the `(k+1)`-st — when there is one —
fails its check, the walk commits exactly the first `k` elements and returns
their reversed concatenation prepended to the initial accumulator. -/
theorem assembleLoop_commits (encode : String → List Nat) (max_length : Nat) :
    ∀ (k : Nat) (xs : List String) (acc : String),
      k ≤ xs.length →
      (∀ j, j < k →
        (encode (promptPreamble ++ (concatAll ((xs.take j).reverse) ++ acc) ++
          xs.getD j "")).length ≤ max_length) →
      (k < xs.length →
        ¬ (encode (promptPreamble ++ (concatAll ((xs.take k).reverse) ++ acc) ++
          xs.getD k "")).length ≤ max_length) →
      assembleLoop encode max_length xs acc true =
        (concatAll ((xs.take k).reverse) ++ acc, true) := by
  intro k
  induction k with
  | zero =>
    intro xs acc _ _ hfail
    cases xs with
    | nil => simp [assembleLoop, concatAll_nil, empty_append_str]
    | cons x rest =>
      have hfail0 := hfail (by simp)
      simp only [List.take_zero, List.reverse_nil, concatAll_nil,
        empty_append_str, List.getD_cons_zero] at hfail0 ⊢
      unfold assembleLoop
      rw [if_neg hfail0]
  | succ k ih =>
    intro xs acc hk hpass hfail
    cases xs with
    | nil => simp at hk
    | cons x rest =>
      have hpass0 := hpass 0 (Nat.succ_pos k)
      simp only [List.take_zero, List.reverse_nil, concatAll_nil,
        empty_append_str, List.getD_cons_zero] at hpass0
      unfold assembleLoop
      rw [if_pos hpass0]
      have hshift : ∀ j, concatAll ((x :: rest).take (j + 1)).reverse ++ acc =
          concatAll ((rest.take j).reverse) ++ (x ++ acc) := by
        intro j
        rw [List.take_succ_cons, List.reverse_cons, concatAll_append, concatAll_cons,
          concatAll_nil, String.append_empty, String.append_assoc]
      rw [List.take_succ_cons, List.reverse_cons, concatAll_append, concatAll_cons,
        concatAll_nil, String.append_empty, String.append_assoc]
      apply ih rest (x ++ acc) (Nat.le_of_succ_le_succ hk)
      · intro j hj
        have := hpass (j + 1) (Nat.succ_lt_succ hj)
        rw [hshift j] at this
        simpa using this
      · intro hklen
        have := hfail (Nat.succ_lt_succ hklen)
        rw [hshift k] at this
        simpa using this


/-- C7: the assembler walks the history most-recent-first; "fit" is the
source's own check (the candidate turn measured appended after the current
accumulator).  If the `k` most recent turns each pass their successive checks
and the next-older turn (when one exists) fails its check, the assembled
prompt contains exactly those `k` most recent turns — no older turn appears,
regardless of whether it would individually fit — and the included turns
appear oldest-to-newest between the preamble and the new utterance. -/
theorem assembler_short_circuit (encode : String → List Nat) (max_length : Nat)
    (text : String) (history : List (String × String)) (k : Nat)
    (hk : k ≤ history.length)
    (hu : (encode (promptPreamble ++ serializeUtterance text)).length ≤ max_length)
    (hpass : ∀ j, j < k →
      (encode (promptPreamble ++
        (concatAll ((history.map serializeTurn).drop (history.length - j)) ++
          serializeUtterance text) ++
        ((history.map serializeTurn).reverse.getD j ""))).length ≤ max_length)
    (hfail : k < history.length →
      ¬ (encode (promptPreamble ++
        (concatAll ((history.map serializeTurn).drop (history.length - k)) ++
          serializeUtterance text) ++
        ((history.map serializeTurn).reverse.getD k ""))).length ≤ max_length) :
    generate_prompt_with_history text history encode max_length =
      some (promptPreamble ++
        (concatAll ((history.map serializeTurn).drop (history.length - k)) ++
          serializeUtterance text),
        encode (promptPreamble ++
          (concatAll ((history.map serializeTurn).drop (history.length - k)) ++
            serializeUtterance text))) := by
  have hlen : (history.map serializeTurn).length = history.length :=
    List.length_map _ _
  have hconv : ∀ j, concatAll (((history.map serializeTurn).reverse.take j).reverse)
      = concatAll ((history.map serializeTurn).drop (history.length - j)) := by
    intro j
    rw [List.take_reverse, List.reverse_reverse, hlen]
  have hloop : assembleLoop encode max_length
      ((history.map serializeTurn).reverse) (serializeUtterance text) true =
      (concatAll ((history.map serializeTurn).drop (history.length - k)) ++
        serializeUtterance text, true) := by
    rw [← hconv k]
    apply assembleLoop_commits encode max_length k
      ((history.map serializeTurn).reverse) (serializeUtterance text)
    · rw [List.length_reverse, hlen]; exact hk
    · intro j hj
      have := hpass j hj
      rw [← hconv j] at this
      exact this
    · intro hklen
      rw [List.length_reverse, hlen] at hklen
      have := hfail hklen
      rw [← hconv k] at this
      exact this
  have hrev : (history.map serializeTurn ++ [serializeUtterance text]).reverse
      = serializeUtterance text :: (history.map serializeTurn).reverse := by
    rw [List.reverse_append]
    rfl
  have hu2 : (encode (promptPreamble ++ "" ++ serializeUtterance text)).length
      ≤ max_length := by
    rw [String.append_empty]
    exact hu
  simp only [generate_prompt_with_history]
  rw [hrev]
  simp only [assembleLoop]
  rw [if_pos hu2, String.append_empty, hloop]
  rfl

/-- Witness for C7 with `k = 0`: the most recent turn contains LONGMARKER and
fails its check, so the assembled prompt holds no history turn at all, even
though the older turn ("old", "ok") would individually fit (its token count
under `markerEnc` is 0). -/
theorem assembler_short_circuit_witness :
    generate_prompt_with_history "u" [("old", "ok"), ("LONGMARKERLONG", "no")]
      markerEnc 100 =
      some (promptPreamble ++ serializeUtterance "u",
        markerEnc (promptPreamble ++ serializeUtterance "u")) := by
  have h := assembler_short_circuit markerEnc 100 "u"
    [("old", "ok"), ("LONGMARKERLONG", "no")] 0 (by decide)
    (by with_unfolding_all decide)
    (by intro j hj; omega)
    (by intro _; with_unfolding_all decide)
  exact h.trans (by with_unfolding_all rfl)


/-- Walk invariant under an additive token count: if the accumulator fitted
when the flag was last set, every further commit keeps the fit, because the
measured string (accumulator with the candidate appended) and the committed
string (candidate prepended) have equal counts. -/
theorem assembleLoop_fits (encode : String → List Nat) (max_length : Nat)
    (hadd : ∀ a b : String,
      (encode (a ++ b)).length = (encode a).length + (encode b).length) :
    ∀ (xs : List String) (acc : String) (flag : Bool),
      (flag = true → (encode (promptPreamble ++ acc)).length ≤ max_length) →
      ((assembleLoop encode max_length xs acc flag).2 = true →
        (encode (promptPreamble ++
          (assembleLoop encode max_length xs acc flag).1)).length ≤ max_length) := by
  intro xs
  induction xs with
  | nil => intro acc flag hinv; exact hinv
  | cons x rest ih =>
    intro acc flag hinv
    unfold assembleLoop
    split
    · rename_i hfit
      apply ih (x ++ acc) true
      intro _
      rw [hadd (promptPreamble ++ acc) x, hadd promptPreamble acc] at hfit
      rw [hadd promptPreamble (x ++ acc), hadd x acc]
      omega
    · exact hinv

/-- C8 (amended): assembly fails if and only if even the bare
preamble-plus-new-utterance exceeds `max_length` (first conjunct, exactly as
claimed).  The success invariant — the returned prompt's token count is at
most `max_length` — holds whenever the token count is additive over
concatenation (second conjunct); it does NOT hold for arbitrary tokenizers,
because each walk step measures `preamble ++ accumulator ++ turn` but commits
`turn ++ accumulator` (see the counterexample). -/
theorem assembler_failure_iff_and_additive_bound (text : String)
    (history : List (String × String)) (encode : String → List Nat)
    (max_length : Nat) :
    (generate_prompt_with_history text history encode max_length = none ↔
      max_length < (encode (promptPreamble ++ serializeUtterance text)).length) ∧
    ((∀ a b : String,
        (encode (a ++ b)).length = (encode a).length + (encode b).length) →
      ∀ ps ids, generate_prompt_with_history text history encode max_length
          = some (ps, ids) →
        (encode ps).length ≤ max_length) := by
  have hrev : (history.map serializeTurn ++ [serializeUtterance text]).reverse
      = serializeUtterance text :: (history.map serializeTurn).reverse := by
    rw [List.reverse_append]
    rfl
  constructor
  · simp only [generate_prompt_with_history]
    rw [hrev]
    simp only [assembleLoop]
    by_cases hfit :
        (encode (promptPreamble ++ "" ++ serializeUtterance text)).length ≤ max_length
    · rw [if_pos hfit]
      have hflag := assembleLoop_flag_true encode max_length
        ((history.map serializeTurn).reverse) (serializeUtterance text ++ "")
      rw [if_pos hflag]
      rw [String.append_empty] at hfit
      constructor
      · intro hnone
        exact absurd hnone (by simp)
      · intro hgt
        omega
    · rw [if_neg hfit]
      rw [String.append_empty] at hfit
      simp only [Bool.false_eq_true, if_false]
      constructor
      · intro _
        omega
      · intro _
        trivial
  · intro hadd ps ids hsome
    have hfits := assembleLoop_fits encode max_length hadd
      ((history.map serializeTurn ++ [serializeUtterance text]).reverse) "" false
      (by intro h; exact absurd h (by simp))
    revert hsome
    simp only [generate_prompt_with_history]
    by_cases h2 : (assembleLoop encode max_length
        (history.map serializeTurn ++ [serializeUtterance text]).reverse "" false).2
        = true
    · rw [if_pos h2]
      intro hsome
      have hps : ps = promptPreamble ++ (assembleLoop encode max_length
          (history.map serializeTurn ++ [serializeUtterance text]).reverse "" false).1 := by
        injection hsome with h3
        injection h3 with h4 h5
        exact h4.symm
      rw [hps]
      exact hfits h2
    · rw [if_neg h2]
      intro hsome
      exact absurd hsome (by simp)

/-- C8 counterexample: with a tokenizer whose count is sensitive to
concatenation order (`boundaryEnc` charges 10 for the boundary digram
digit-1-then-newline), assembly with `max_length = 1` succeeds — every string
it measured had count at most 1 — yet the returned prompt's own token count
is 11, exceeding the budget: the claimed success invariant is false for
general tokenizers. -/
theorem assembler_budget_overrun :
    (generate_prompt_with_history "u" [("a", "1")] boundaryEnc 1).isSome = true ∧
    ((generate_prompt_with_history "u" [("a", "1")] boundaryEnc 1).map
      (fun pr => (boundaryEnc pr.1).length)).getD 0 = 11 ∧ 1 < 11 := by
  refine ⟨by with_unfolding_all rfl, by with_unfolding_all rfl, by decide⟩

/-- Witness for C8: failure at a too-small budget (685 needed, 10 allowed),
and, under the additive character tokenizer, a successful assembly whose
prompt token count respects the budget. -/
theorem assembler_failure_iff_witness :
    generate_prompt_with_history "x" [] charEnc 10 = none ∧
    (charEnc (promptPreamble ++
      (serializeTurn ("a", "b") ++ (serializeUtterance "Hi" ++ "")))).length ≤ 2048 := by
  have hadd : ∀ a b : String,
      (charEnc (a ++ b)).length = (charEnc a).length + (charEnc b).length := by
    intro a b
    simp [charEnc, String.data_append]
  constructor
  · exact (assembler_failure_iff_and_additive_bound "x" [] charEnc 10).1.mpr
      (by with_unfolding_all decide)
  · exact (assembler_failure_iff_and_additive_bound "Hi" [("a", "b")] charEnc 2048).2
      hadd _ _ (by with_unfolding_all rfl)

/-- The walk's commit count is monotone in the budget: any commit made under
the smaller budget is also made under the larger one, step for step. -/
theorem assembleCount_mono (encode : String → List Nat) :
    ∀ (xs : List String) (acc : String) (m1 m2 : Nat), m1 ≤ m2 →
      assembleCount encode m1 xs acc ≤ assembleCount encode m2 xs acc := by
  intro xs
  induction xs with
  | nil => intro acc m1 m2 _; exact Nat.le_refl 0
  | cons x rest ih =>
    intro acc m1 m2 h12
    unfold assembleCount
    by_cases hfit : (encode (promptPreamble ++ acc ++ x)).length ≤ m1
    · rw [if_pos hfit, if_pos (le_trans hfit h12)]
      exact Nat.succ_le_succ (ih (x ++ acc) m1 m2 h12)
    · rw [if_neg hfit]
      exact Nat.zero_le _

/-- C10: for a fixed utterance and history, and budgets `m1 ≤ m2` under both
of which assembly succeeds, the number of history turns included under `m2`
is at least the number included under `m1`. -/
theorem assembler_monotone_in_budget (text : String)
    (history : List (String × String)) (encode : String → List Nat)
    (m1 m2 : Nat) (h12 : m1 ≤ m2)
    (h1 : (generate_prompt_with_history text history encode m1).isSome = true)
    (h2 : (generate_prompt_with_history text history encode m2).isSome = true) :
    includedTurns text history encode m1 ≤ includedTurns text history encode m2 := by
  unfold includedTurns
  by_cases hfit : (encode (promptPreamble ++ serializeUtterance text)).length ≤ m1
  · rw [if_pos hfit, if_pos (le_trans hfit h12)]
    exact assembleCount_mono encode _ _ m1 m2 h12
  · rw [if_neg hfit]
    exact Nat.zero_le _

/-- Witness for C10: under the character tokenizer, budget 700 admits no
history turn while budget 2048 admits both, and the theorem's inequality holds
(0 ≤ 2). -/
theorem assembler_monotone_in_budget_witness :
    includedTurns "Hi" [("a", "b"), ("c", "d")] charEnc 700 ≤
      includedTurns "Hi" [("a", "b"), ("c", "d")] charEnc 2048 :=
  assembler_monotone_in_budget "Hi" [("a", "b"), ("c", "d")] charEnc 700 2048
    (by decide) (by with_unfolding_all rfl) (by with_unfolding_all rfl)


/-- C1 (amended): for every run of the caller-facing operation in which the
assembled prompt exists and the decode stream finishes with no error, the
module's final answer is the last yielded text with occurrences of the exact
fragment newline-[|Human|] removed — and only that fragment: a stop marker not
preceded by a newline, or an [|AI|] marker, is not stripped. -/
theorem moduleMain_returns_last_yield_stripped {σ : Type} (E : ℚ → ℚ)
    (draws : Nat → ℚ) (encode : String → List Nat) (tokDecode : List Nat → String)
    (model : ModelStub σ) (b a q : String) (ml : Nat) (t p : ℚ) (k : Option Nat)
    (mctx : Nat) (pr : String) (ids : List Nat) (last : List Nat × String)
    (hprompt : generate_prompt_with_history q [] encode ml = some (pr, ids))
    (hmctx : mctx ≠ 0)
    (hnoerr : (sample_decode E draws (ids.drop (ids.length - mctx)) model tokDecode
      ["[|Human|]", "[|AI|]"] 256).error = none)
    (hlast : (sample_decode E draws (ids.drop (ids.length - mctx)) model tokDecode
      ["[|Human|]", "[|AI|]"] 256).yields.getLast? = some last)
    (hstop : stopHit ["[|Human|]", "[|AI|]"] last.2 = true) :
    moduleMainAnswer E draws encode tokDecode model b a q ml t p k mctx =
      some (pyReplace last.2 "\n[|Human|]" "") := by
  simp only [moduleMainAnswer, answer_generation]
  rw [hprompt]
  dsimp only
  rw [if_neg hmctx, hnoerr]
  dsimp only
  rw [hlast]
  rfl

/-- C1 counterexample: in the claimed end-to-end scenario (utterance Hello,
empty history, max_length 2048, max_context_length_tokens 180, Model emitting
the token sequence for the marked text one token at a time) the source returns
the last yield with the trailing stop marker still attached, because the
script strips only the fragment newline-[|Human|]: the result is not the
claimed "Hi there!". -/
theorem answer_scenario_keeps_unnewlined_marker :
    moduleMainAnswer expApprox (fun _ => 0) charEnc (positionDecode hiThereMarked)
      stepIndexModel "base" "adapter" "Hello" 2048 1 1 (some 30) 180 =
      some "Hi there![|Human|]" ∧
    (some "Hi there![|Human|]" : Option String) ≠ some "Hi there!" := by
  refine ⟨by with_unfolding_all rfl, by decide⟩

/-- Witness for C1 (amended) in the scenario where the Model emits
"Hi there!" followed by a newline and the stop marker: the pipeline returns
exactly "Hi there!". -/
theorem moduleMain_returns_last_yield_stripped_witness :
    moduleMainAnswer expApprox (fun _ => 0) charEnc
      (positionDecode hiThereNewlineMarked) stepIndexModel "base" "adapter"
      "Hello" 2048 1 1 (some 30) 180 = some "Hi there!" := by
  have h := moduleMain_returns_last_yield_stripped expApprox (fun _ => 0) charEnc
    (positionDecode hiThereNewlineMarked) stepIndexModel "base" "adapter" "Hello"
    2048 1 1 (some 30) 180
    (promptPreamble ++ (serializeUtterance "Hello" ++ ""))
    (charEnc (promptPreamble ++ (serializeUtterance "Hello" ++ "")))
    (List.range 19, hiThereNewlineMarked)
    (by with_unfolding_all rfl)
    (by decide)
    (by with_unfolding_all rfl)
    (by with_unfolding_all rfl)
    (by with_unfolding_all rfl)
  exact h.trans (by with_unfolding_all rfl)


theorem sum_map_div (l : List ℚ) (d : ℚ) :
    (l.map (fun x => x / d)).sum = l.sum / d := by
  induction l with
  | nil => simp
  | cons x xs ih => simp [ih, add_div]

theorem softmaxE_length (E : ℚ → ℚ) (l : List ℚ) :
    (softmaxE E l).length = l.length := by
  simp [softmaxE]

theorem softmaxE_sum (E : ℚ → ℚ) (l : List ℚ) (hE : ∀ x, 0 < E x) (hne : l ≠ []) :
    (softmaxE E l).sum = 1 := by
  unfold softmaxE
  have hwpos : ∀ x ∈ l.map E, 0 < x := by
    intro x hx
    rcases List.mem_map.mp hx with ⟨y, _, rfl⟩
    exact hE y
  have hS : 0 < (l.map E).sum :=
    List.sum_pos _ hwpos (by simpa using hne)
  rw [sum_map_div]
  exact div_self (ne_of_gt hS)

theorem softmaxE_pos (E : ℚ → ℚ) (l : List ℚ) (hE : ∀ x, 0 < E x) (hne : l ≠ []) :
    ∀ p ∈ softmaxE E l, 0 < p := by
  intro p hp
  unfold softmaxE at hp
  rcases List.mem_map.mp hp with ⟨x, hx, rfl⟩
  rcases List.mem_map.mp hx with ⟨y, _, rfl⟩
  have hwpos : ∀ z ∈ l.map E, 0 < z := by
    intro z hz
    rcases List.mem_map.mp hz with ⟨w, _, rfl⟩
    exact hE w
  exact div_pos (hE y) (List.sum_pos _ hwpos (by simpa using hne))

theorem sortDesc_fst_perm (ps : List ℚ) : (sortDesc ps).1.Perm ps := by
  unfold sortDesc
  have h1 : (List.insertionSort descPair ps.enum).Perm ps.enum :=
    List.perm_insertionSort descPair ps.enum
  have h2 := h1.map (fun x : Nat × ℚ => x.2)
  have h3 : List.map (fun x : Nat × ℚ => x.2) ps.enum = ps := List.enum_map_snd ps
  rw [h3] at h2
  exact h2

theorem sortDesc_fst_length (ps : List ℚ) : (sortDesc ps).1.length = ps.length :=
  (sortDesc_fst_perm ps).length_eq

theorem sortDesc_fst_sorted (ps : List ℚ) :
    (sortDesc ps).1.Sorted (fun a b : ℚ => b ≤ a) := by
  unfold sortDesc
  exact List.Pairwise.map _ (fun a b h => h)
    (List.sorted_insertionSort descPair ps.enum)

/-- The where-clause of the top-k step is the identity when no entry is below
the threshold. -/
theorem map_if_lt_eq_self (m : ℚ) (l : List ℚ) (h : ∀ a ∈ l, m ≤ a) :
    l.map (fun p => if p < m then 0 else p) = l := by
  induction l with
  | nil => rfl
  | cons x xs ih =>
    simp only [List.map_cons]
    rw [if_neg (not_lt.mpr (h x (List.mem_cons_self x xs))),
      ih (fun a ha => h a (List.mem_cons_of_mem x ha))]

/-- With `top_p = 1`, strictly positive entries and total mass at most 1, the
top-p mask zeroes nothing. -/
theorem topPFilter_eq_self (ps : List ℚ) (hpos : ∀ p ∈ ps, 0 < p)
    (hsum : ps.sum ≤ 1) : topPFilter 1 ps = ps := by
  apply List.ext_getElem
  · exact topPFilter_length 1 ps
  · intro j h1 h2
    rw [← List.getD_eq_getElem _ 0 h1, ← List.getD_eq_getElem _ 0 h2,
      topPFilter_getD 1 ps j h2]
    have hj1 : (ps.take (j + 1)).sum ≤ ps.sum := by
      have := sum_take_mono ps (fun p hp => le_of_lt (hpos p hp))
        (Nat.le_of_lt_succ (Nat.succ_lt_succ h2))
      rwa [List.take_length] at this
    have hsucc : (ps.take (j + 1)).sum = (ps.take j).sum + ps[j] :=
      List.sum_take_succ ps j h2
    have hplt : 0 < ps[j] := hpos _ (List.getElem_mem h2)
    rw [if_neg (by push_neg; linarith)]

/-- With `top_k` equal to the full length, the top-k step zeroes nothing. -/
theorem topkFilter_full (ps : List ℚ) (hnn : ∀ p ∈ ps, 0 ≤ p) (hne : ps ≠ []) :
    topkFilter (some ps.length) ps = .ok ps := by
  unfold topkFilter
  dsimp only
  rw [if_neg (lt_irrefl ps.length)]
  have hsp : (List.insertionSort descQ ps).Perm ps := List.perm_insertionSort descQ ps
  have htk : topkVals ps ps.length = List.insertionSort descQ ps := by
    unfold topkVals
    rw [← List.length_insertionSort descQ ps, List.take_length]
  cases hmin : (topkVals ps ps.length).min? with
  | none =>
    rw [List.min?_eq_none_iff, htk] at hmin
    rw [hmin] at hsp
    exact absurd hsp.nil_eq.symm hne
  | some m =>
    rw [List.min?_eq_some_iff (fun a => le_refl a) (fun a b => min_choice a b)
      (fun a b c => le_min_iff)] at hmin
    have hmle : ∀ p ∈ ps, m ≤ p := by
      intro p hp
      exact hmin.2 p (by rw [htk]; exact hsp.mem_iff.mpr hp)
    dsimp only
    rw [map_if_lt_eq_self m ps hmle]

/-- If fewer than `k` entries are nonzero (and `0 < k ≤ length`, entries
nonnegative), the k-th largest value is 0 and the top-k step is a no-op. -/
theorem topkFilter_noop_of_few_nonzero (ps : List ℚ) (k : Nat)
    (hnn : ∀ p ∈ ps, 0 ≤ p) (hk : 0 < k) (hklen : k ≤ ps.length)
    (hcnt : ps.countP (fun p => decide (p ≠ 0)) < k) :
    topkFilter (some k) ps = .ok ps := by
  have hsp : (List.insertionSort descQ ps).Perm ps := List.perm_insertionSort descQ ps
  have hslen : (List.insertionSort descQ ps).length = ps.length :=
    List.length_insertionSort descQ ps
  have hsorted : (List.insertionSort descQ ps).Sorted descQ :=
    List.sorted_insertionSort descQ ps
  have hsnn : ∀ p ∈ List.insertionSort descQ ps, 0 ≤ p :=
    fun p hp => hnn p (hsp.mem_iff.mp hp)
  have hkl : k - 1 < (List.insertionSort descQ ps).length := by omega
  -- the (k-1)-st sorted entry must be zero, else there are at least k nonzeros
  have hz : (List.insertionSort descQ ps)[k - 1] = 0 := by
    by_contra hne0
    have he : 0 < (List.insertionSort descQ ps)[k - 1] :=
      lt_of_le_of_ne (hsnn _ (List.getElem_mem hkl)) (Ne.symm hne0)
    have hallk : ∀ a ∈ (List.insertionSort descQ ps).take k,
        (fun p => decide (p ≠ 0)) a = true := by
      intro a ha
      rcases List.mem_iff_getElem.mp ha with ⟨i, hi, rfl⟩
      have hi2 : i < (List.insertionSort descQ ps).length := by
        have := hi
        simp only [List.length_take] at this
        omega
      rw [List.getElem_take]
      have hge : (List.insertionSort descQ ps)[k - 1] ≤
          (List.insertionSort descQ ps)[i] := by
        rcases Nat.lt_or_ge i (k - 1) with hlt | hge2
        · exact hsorted.rel_get_of_lt (a := ⟨i, hi2⟩) (b := ⟨k - 1, hkl⟩) hlt
        · have hile : i ≤ k - 1 := by
            have := hi
            simp only [List.length_take] at this
            omega
          have : i = k - 1 := le_antisymm hile hge2
          subst this
          exact le_refl _
      simp only [decide_eq_true_eq]
      intro hzero
      rw [hzero] at hge
      exact absurd (lt_of_lt_of_le he hge) (lt_irrefl 0)
    have hlen_take : ((List.insertionSort descQ ps).take k).length = k := by
      simp only [List.length_take]
      omega
    have hcount_take : ((List.insertionSort descQ ps).take k).countP
        (fun p => decide (p ≠ 0)) = k := by
      rw [List.countP_eq_length.mpr hallk, hlen_take]
    have hsplit := List.countP_append (fun p => decide (p ≠ 0))
      ((List.insertionSort descQ ps).take k) ((List.insertionSort descQ ps).drop k)
    rw [List.take_append_drop] at hsplit
    have hcs : (List.insertionSort descQ ps).countP (fun p => decide (p ≠ 0))
        = ps.countP (fun p => decide (p ≠ 0)) := hsp.countP_eq _
    omega
  -- hence the min of the top k values is zero and nothing is strictly below it
  unfold topkFilter
  dsimp only
  rw [if_neg (not_lt.mpr hklen)]
  have hmem0 : (0 : ℚ) ∈ topkVals ps k := by
    unfold topkVals
    have hkt : k - 1 < ((List.insertionSort descQ ps).take k).length := by
      simp only [List.length_take]
      omega
    have := List.getElem_mem hkt
    rwa [List.getElem_take, hz] at this
  cases hmin : (topkVals ps k).min? with
  | none =>
    rw [List.min?_eq_none_iff] at hmin
    rw [hmin] at hmem0
    exact absurd hmem0 (List.not_mem_nil 0)
  | some m =>
    rw [List.min?_eq_some_iff (fun a => le_refl a) (fun a b => min_choice a b)
      (fun a b c => le_min_iff)] at hmin
    have hm0 : m = 0 := by
      have h1 : m ≤ 0 := hmin.2 0 hmem0
      have h2 : 0 ≤ m := by
        have hmm := hmin.1
        unfold topkVals at hmm
        exact hsnn m (List.mem_of_mem_take hmm)
      linarith
    subst hm0
    dsimp only
    rw [map_if_lt_eq_self 0 ps hnn]


/-- C9 (amended): with `top_p = 1.0` and `top_k` equal to the vocabulary size
(the largest value torch.topk accepts — `top_k` strictly greater than the
vocabulary size instead raises, see the counterexample), neither filter zeroes
any probability mass and the sampler coincides with plain temperature-scaled
multinomial sampling over the full softmax distribution (first conjunct).  In
general the top-k step is a no-op whenever `top_k` exceeds the number of
still-nonzero entries while remaining within the vocabulary (second conjunct),
and it zeroes exactly the entries strictly less than the k-th largest
surviving value, the minimum of the top-k block (third conjunct). -/
theorem sampler_reduces_to_plain_when_full (E : ℚ → ℚ) (temperature : ℚ)
    (logits : List ℚ) (u : ℚ) (hE : ∀ x, 0 < E x) (hne : logits ≠ []) :
    sampleStep E temperature 1 (some logits.length) logits u =
      plainSampleStep E temperature logits u ∧
    (∀ (ps : List ℚ) (k : Nat), 0 < k → k ≤ ps.length → (∀ p ∈ ps, 0 ≤ p) →
      ps.countP (fun p => decide (p ≠ 0)) < k →
      topkFilter (some k) ps = .ok ps) ∧
    (∀ (ps : List ℚ) (k : Nat) (m : ℚ), k ≤ ps.length →
      (topkVals ps k).min? = some m →
      topkFilter (some k) ps = .ok (ps.map (fun p => if p < m then 0 else p))) := by
  refine ⟨?_,
    fun ps k hk hklen hnn hcnt => topkFilter_noop_of_few_nonzero ps k hnn hk hklen hcnt,
    ?_⟩
  · simp only [sampleStep, postFilterProbs, plainSampleStep]
    have hscaled_ne : logits.map (fun x => x / temperature) ≠ [] := by
      simpa using hne
    set probs := softmaxE E (logits.map (fun x => x / temperature)) with hprobs
    have hpos : ∀ p ∈ probs, 0 < p := softmaxE_pos E _ hE hscaled_ne
    have hsum : probs.sum = 1 := softmaxE_sum E _ hE hscaled_ne
    have hlenp : probs.length = logits.length := by
      rw [hprobs, softmaxE_length, List.length_map]
    have hpperm := sortDesc_fst_perm probs
    have hppos : ∀ p ∈ (sortDesc probs).1, 0 < p :=
      fun p hp => hpos p (hpperm.mem_iff.mp hp)
    have hpsum : (sortDesc probs).1.sum = 1 := by rw [hpperm.sum_eq, hsum]
    have hplen : (sortDesc probs).1.length = logits.length := by
      rw [sortDesc_fst_length, hlenp]
    have htopp : topPFilter 1 (sortDesc probs).1 = (sortDesc probs).1 :=
      topPFilter_eq_self _ hppos (le_of_eq hpsum)
    have hpe : (sortDesc probs).1 ≠ [] := by
      intro hnil
      rw [hnil] at hplen
      exact hne (List.length_eq_zero.mp hplen.symm)
    have htopk : topkFilter (some logits.length) (sortDesc probs).1 =
        .ok (sortDesc probs).1 := by
      rw [← hplen]
      exact topkFilter_full _ (fun p hp => le_of_lt (hppos p hp)) hpe
    have hrenorm : (sortDesc probs).1.map (fun p => p / (sortDesc probs).1.sum) =
        (sortDesc probs).1 := by
      rw [hpsum]
      simp [div_one]
    rw [htopp, htopk]
    dsimp only
    rw [hrenorm]
  · intro ps k m hklen hmin
    unfold topkFilter
    dsimp only
    rw [if_neg (not_lt.mpr hklen), hmin]

/-- C9 counterexample: with vocabulary size 2 and `top_k = 3 ≥ 2`, the claim
predicts plain full-softmax multinomial sampling; instead
`torch.topk(probs_sort, 3)` on a 2-element tensor raises and the sampler
errors out, while plain sampling would have returned token 1. -/
theorem topk_exceeding_vocab_errors :
    sampleStep expApprox 1 1 (some 3) [0, 1] 0 =
      Except.error SampleErr.topkOutOfRange ∧
    plainSampleStep expApprox 1 [0, 1] 0 = Except.ok 1 ∧
    (Except.error SampleErr.topkOutOfRange : Except SampleErr Nat) ≠ Except.ok 1 :=
  ⟨by with_unfolding_all rfl, by with_unfolding_all rfl,
    fun h => Except.noConfusion h⟩

/-- Witness for C9: at vocabulary size 2 with `top_k = 2` the sampler equals
plain sampling, and the top-k step is a no-op on `[1/2, 0]` with `k = 2`
(only one nonzero entry). -/
theorem sampler_reduces_to_plain_when_full_witness :
    sampleStep expApprox 1 1 (some 2) [0, 1] 0 =
      plainSampleStep expApprox 1 [0, 1] 0 ∧
    topkFilter (some 2) [1/2, 0] = Except.ok [1/2, 0] := by
  have h := sampler_reduces_to_plain_when_full expApprox 1 [0, 1] 0 expApprox_pos
    (by simp)
  exact ⟨h.1, h.2.1 [1/2, 0] 2 (by decide) (by decide)
    (by with_unfolding_all decide) (by with_unfolding_all decide)⟩

end EHRKit
